import Mathlib

/-!
Shallow embedding of the session-key lifecycle engine of `jwk-auth`
(packages `model`, `internal/manager`, `internal/repository`).

Modelling conventions:
* Go `map[K]V` values are association lists with no duplicate keys; the
  mutating operations below (`alSet`, `alDel`) preserve that shape exactly as
  a Go map assignment / `delete` does.  Iteration over a Go map is modelled
  by iteration in list order.
* Machine integers (`int`, `int64` nanoseconds) are `Nat`: user ids are DB
  serial values and clock readings are non-negative, and no arithmetic in
  the modelled code can overflow or go negative.
* `fmt.Sprintf("%s-%d-%d", deviceType, userID, nonce)` is modelled by
  `mkKeyID` below, with `natRepr` the decimal printer for `%d`.
* RSA key material is opaque: a `Nat` tag.  `jwk.Import`/`jwk.Export` and
  `json.Marshal` of a freshly generated key cannot fail and are modelled as
  total; `jwk.ParseKey` of a stored string can fail and is modelled by
  `parseKey` over `SerializedKey`.
-/

namespace JwkAuth

/-! ### Decimal printing (the `%d` verb of `fmt.Sprintf`) -/

def digitChar (d : Nat) : Char :=
  match d with
  | 0 => '0' | 1 => '1' | 2 => '2' | 3 => '3' | 4 => '4'
  | 5 => '5' | 6 => '6' | 7 => '7' | 8 => '8' | _ => '9'

def natDigitsF (fuel n : Nat) : List Char :=
  match fuel with
  | 0 => []
  | fuel + 1 =>
    if n < 10 then [digitChar n]
    else natDigitsF fuel (n / 10) ++ [digitChar (n % 10)]

def natDigits (n : Nat) : List Char := natDigitsF (n + 1) n

def natRepr (n : Nat) : String := ⟨natDigits n⟩

def digitVal (c : Char) : Nat := c.toNat - 48

def digitsVal (l : List Char) : Nat := l.foldl (fun a c => 10 * a + digitVal c) 0

/-! ### Splitting a key id at its last hyphens -/

def splitLast (l : List Char) : Option (List Char × List Char) :=
  match l.reverse.dropWhile (fun c => c ≠ '-') with
  | [] => none
  | _ :: pre => some (pre.reverse, (l.reverse.takeWhile (fun c => c ≠ '-')).reverse)

/-! ### Key ids: `fmt.Sprintf("%s-%d-%d", deviceType, userID, nonce)` -/

def mkKeyID (deviceType : String) (userID : Nat) (nonce : Nat) : String :=
  deviceType ++ "-" ++ natRepr userID ++ "-" ++ natRepr nonce

/-- The device-category segment of a structured key id: everything before the
last two hyphen-separated fields (the display parse flagged in the spec). -/
def kidCategory (s : String) : Option String :=
  (splitLast s.data).bind fun p => (splitLast p.1).map fun q => ⟨q.1⟩

end JwkAuth

deriving instance DecidableEq for Except

namespace JwkAuth

/-! ### Association lists: the model of Go `map` values -/

def alGet {κ ν : Type} [DecidableEq κ] : List (κ × ν) → κ → Option ν
  | [], _ => none
  | (k, v) :: t, k0 => if k = k0 then some v else alGet t k0

def alSet {κ ν : Type} [DecidableEq κ] : List (κ × ν) → κ → ν → List (κ × ν)
  | [], k0, v0 => [(k0, v0)]
  | (k, v) :: t, k0, v0 => if k = k0 then (k0, v0) :: t else (k, v) :: alSet t k0 v0

def alDel {κ ν : Type} [DecidableEq κ] : List (κ × ν) → κ → List (κ × ν)
  | [], _ => []
  | (k, v) :: t, k0 => if k = k0 then alDel t k0 else (k, v) :: alDel t k0

/-! ### Key material (`jwk.Key` objects and their serialized JSON forms) -/

/-- A parsed `jwk.Key`: `kid` is the `jwk.KeyIDKey` attribute (`key.KeyID()`
returns `(string, bool)`, hence `Option`), `material` an opaque tag for the
RSA key pair. -/
structure JwkKey where
  kid : Option String
  material : Nat
deriving DecidableEq, Repr

/-- A serialized key string as stored in `KeyData`; `jwk.ParseKey` can fail,
so a stored string is either a faithful serialization or corrupt. -/
inductive SerializedKey where
  | ser (k : JwkKey)
  | corrupt (tag : Nat)
deriving DecidableEq, Repr

def parseKey : SerializedKey → Option JwkKey
  | .ser k => some k
  | .corrupt _ => none

/-- `map[string]string` of `model.UserKeyset.KeyData`: deviceType ↦ serialized key. -/
abbrev KeyData := List (String × SerializedKey)

/-- `model.UserKeyset` (the `Created`/`Updated` timestamps carry no claim
content and are omitted). -/
structure UserKeyset where
  userID : Nat
  keyData : KeyData
deriving DecidableEq, Repr

def UserKeyset.getDeviceKey (uk : UserKeyset) (dt : String) : Option JwkKey :=
  (alGet uk.keyData dt).bind parseKey

def UserKeyset.setDeviceKey (uk : UserKeyset) (dt : String) (k : JwkKey) : UserKeyset :=
  { uk with keyData := alSet uk.keyData dt (.ser k) }

def UserKeyset.removeDeviceKey (uk : UserKeyset) (dt : String) : UserKeyset :=
  { uk with keyData := alDel uk.keyData dt }

def UserKeyset.hasDeviceKey (uk : UserKeyset) (dt : String) : Bool :=
  (alGet uk.keyData dt).isSome

def UserKeyset.isEmpty (uk : UserKeyset) : Bool :=
  uk.keyData.isEmpty

/-! ### The durable store (`userAuthRepository` over table `user_keysets`) -/

/-- The `user_keysets` table: user_id ↦ key_data (the row timestamps carry no
claim content and are omitted). -/
abbrev Store := List (Nat × KeyData)

/-- `GetUserKeyset` distinguishes `sql.ErrNoRows` ("no keyset found for user
%d") from any other I/O failure; the latter is injected via `ioFault`. -/
inductive LoadErr where
  | notFound
  | ioErr
deriving DecidableEq, Repr

def getUserKeysetRepo (st : Store) (u : Nat) (ioFault : Bool) : Except LoadErr UserKeyset :=
  if ioFault then .error .ioErr
  else
    match alGet st u with
    | some kd => .ok ⟨u, kd⟩
    | none => .error .notFound

/-- `SaveUserKeyset`: an upsert (`INSERT ... ON CONFLICT DO UPDATE`). -/
def saveUserKeysetRepo (st : Store) (u : Nat) (kd : KeyData) : Store :=
  alSet st u kd

/-- `DeleteUserKeyset`: errors when zero rows were affected. -/
def deleteUserKeysetRepo (st : Store) (u : Nat) : Except Unit Store :=
  if (alGet st u).isSome then .ok (alDel st u) else .error ()

/-- Inner loop of `FindKeysetByKeyID` / `GetPrivateKeyByID`: first entry whose
stored string parses and whose `kid` matches; corrupt entries are skipped. -/
def findKeyInKeyData (kd : KeyData) (keyID : String) : Option JwkKey :=
  match kd with
  | [] => none
  | (_, sk) :: t =>
    match parseKey sk with
    | some k => if k.kid = some keyID then some k else findKeyInKeyData t keyID
    | none => findKeyInKeyData t keyID

/-- `FindKeysetByKeyID`: scan every row (via `GetAllUserKeysets`), return the
first keyset containing the key id. -/
def findKeysetByKeyID (st : Store) (keyID : String) : Option UserKeyset :=
  match st with
  | [] => none
  | (u, kd) :: t =>
    if (findKeyInKeyData kd keyID).isSome then some ⟨u, kd⟩
    else findKeysetByKeyID t keyID

/-- Search loop of `DeleteSessionKey`: the device type whose stored key
parses with a matching `kid`. -/
def findDeviceTypeByKid (kd : KeyData) (keyID : String) : Option String :=
  match kd with
  | [] => none
  | (dt, sk) :: t =>
    match parseKey sk with
    | some k => if k.kid = some keyID then some dt else findDeviceTypeByKid t keyID
    | none => findDeviceTypeByKid t keyID

/-- Key-id extraction loop of `GetSessionKeys`: parse each stored key, skip
invalid ones and those without a `kid`. -/
def collectKids (kd : KeyData) : List String :=
  kd.filterMap fun p => (parseKey p.2).bind (·.kid)

/-- Export loop of `GetUserPublicKeys`: parse each stored key, skip invalid
ones, export the (public half of the) material. -/
def collectMaterials (kd : KeyData) : List Nat :=
  kd.filterMap fun p => (parseKey p.2).map (·.material)

/-! ### The manager (`jwkManager` of `internal/manager`, LRU variant)

The three `OptimizedKeyCache` indices are modelled as partial maps: LRU
promotion and TTL expiry never change a stored value, they only make entries
disappear, and every theorem below quantifies over the cache contents.  The
three deprecated legacy maps of `jwkManager` are carried as well; the modelled
operations only ever write to them. -/

structure MgrState where
  store : Store
  cacheParsed : List (String × JwkKey)
  cacheKeysets : List (Nat × UserKeyset)
  cacheKeyToUser : List (String × Nat)
  legacyKeysets : List (Nat × UserKeyset)
  legacyParsed : List (String × JwkKey)
  legacyKeyToUser : List (String × Nat)
deriving DecidableEq, Repr

def initMgr : MgrState := ⟨[], [], [], [], [], [], []⟩

/-- `CreateSessionKey` failure: only the `SaveUserKeyset` call can fail in the
model (key generation, `jwk.Import`, `key.Set` and `json.Marshal` of a fresh
key cannot fail). -/
inductive CreateErr where
  | saveFailed
deriving DecidableEq, Repr

inductive DeleteErr where
  | loadFailed (e : LoadErr)
  | keyNotFound
  | deleteFailed
  | saveFailed
deriving DecidableEq, Repr

inductive LookupErr where
  | notFoundStorage
  | notFoundKeyset (u : Nat)
deriving DecidableEq, Repr

/-- `jwkManager.CreateSessionKey` (LRU variant, `part_005:65-141`).  `nonce`
is the `time.Now().UnixNano()` reading, `material` the generated RSA pair. -/
def createSessionKey (s : MgrState) (userID : Nat) (deviceType : String)
    (nonce : Nat) (material : Nat) (loadFault saveFault : Bool) :
    Except CreateErr String × MgrState :=
  let keyID := mkKeyID deviceType userID nonce
  let key : JwkKey := ⟨some keyID, material⟩
  -- the source treats EVERY load error (I/O failure included) as
  -- "no keyset exists, create a new one"
  let keyset :=
    match getUserKeysetRepo s.store userID loadFault with
    | .ok ks => ks
    | .error _ => ⟨userID, []⟩
  -- single-device enforcement: purge the old device key before saving
  let purged :=
    if keyset.hasDeviceKey deviceType then
      let s' :=
        match keyset.getDeviceKey deviceType with
        | some oldKey =>
          match oldKey.kid with
          | some oldKeyID =>
            { s with
              cacheParsed := alDel s.cacheParsed oldKeyID
              cacheKeyToUser := alDel s.cacheKeyToUser oldKeyID
              legacyParsed := alDel s.legacyParsed oldKeyID
              legacyKeyToUser := alDel s.legacyKeyToUser oldKeyID }
          | none => s
        | none => s
      (s', keyset.removeDeviceKey deviceType)
    else (s, keyset)
  let s1 := purged.1
  let keyset2 := purged.2.setDeviceKey deviceType key
  if saveFault then (.error .saveFailed, s1)
  else
    (.ok keyID,
     { s1 with
       store := saveUserKeysetRepo s1.store userID keyset2.keyData
       cacheKeysets := alSet s1.cacheKeysets userID keyset2
       cacheParsed := alSet s1.cacheParsed keyID key
       cacheKeyToUser := alSet s1.cacheKeyToUser keyID userID
       legacyKeysets := alSet s1.legacyKeysets userID keyset2
       legacyParsed := alSet s1.legacyParsed keyID key
       legacyKeyToUser := alSet s1.legacyKeyToUser keyID userID })

/-- `jwkManager.DeleteSessionKey` (`part_005:145-214`). -/
def deleteSessionKey (s : MgrState) (userID : Nat) (keyID : String)
    (loadFault saveFault deleteFault : Bool) : Except DeleteErr Unit × MgrState :=
  match getUserKeysetRepo s.store userID loadFault with
  | .error e => (.error (.loadFailed e), s)
  | .ok keyset =>
    match findDeviceTypeByKid keyset.keyData keyID with
    | none => (.error .keyNotFound, s)
    | some dt =>
      let keyset1 := keyset.removeDeviceKey dt
      let step : Except DeleteErr MgrState :=
        if keyset1.isEmpty then
          if deleteFault then .error .deleteFailed
          else
            match deleteUserKeysetRepo s.store userID with
            | .error _ => .error .deleteFailed
            | .ok st' =>
              .ok { s with
                    store := st'
                    cacheKeysets := alDel s.cacheKeysets userID
                    legacyKeysets := alDel s.legacyKeysets userID }
        else
          if saveFault then .error .saveFailed
          else
            .ok { s with
                  store := saveUserKeysetRepo s.store userID keyset1.keyData
                  cacheKeysets := alSet s.cacheKeysets userID keyset1
                  legacyKeysets := alSet s.legacyKeysets userID keyset1 }
      match step with
      | .error e => (.error e, s)
      | .ok s' =>
        (.ok (),
         { s' with
           cacheParsed := alDel s'.cacheParsed keyID
           cacheKeyToUser := alDel s'.cacheKeyToUser keyID
           legacyParsed := alDel s'.legacyParsed keyID
           legacyKeyToUser := alDel s'.legacyKeyToUser keyID })

/-- `jwkManager.GetSessionKeys` (`part_005:218-245`): absence of a keyset is
an empty list, any other load error is surfaced; the cache is not consulted. -/
def getSessionKeys (s : MgrState) (userID : Nat) (loadFault : Bool) :
    Except LoadErr (List String) :=
  match getUserKeysetRepo s.store userID loadFault with
  | .error .notFound => .ok []
  | .error .ioErr => .error .ioErr
  | .ok ks => .ok (collectKids ks.keyData)

/-- Tail of `GetPrivateKeyByID` once a candidate keyset is fixed: scan it for
the key id, then populate the parsed-key and reverse caches. -/
def finishLookup (s : MgrState) (ks : UserKeyset) (keyID : String) :
    Except LookupErr Nat × MgrState :=
  match findKeyInKeyData ks.keyData keyID with
  | none => (.error (.notFoundKeyset ks.userID), s)
  | some k =>
    (.ok k.material,
     { s with
       cacheParsed := alSet s.cacheParsed keyID k
       cacheKeyToUser := alSet s.cacheKeyToUser keyID ks.userID
       legacyParsed := alSet s.legacyParsed keyID k
       legacyKeyToUser := alSet s.legacyKeyToUser keyID ks.userID })

/-- `jwkManager.GetPrivateKeyByID` (`part_005:249-324`): parsed-key cache,
then reverse lookup (falling back to the full scan only when it yields no
keyset at all), then `FindKeysetByKeyID`. -/
def getPrivateKeyByID (s : MgrState) (keyID : String) (loadFault : Bool) :
    Except LookupErr Nat × MgrState :=
  match alGet s.cacheParsed keyID with
  | some key => (.ok key.material, s)
  | none =>
    let rev : Option UserKeyset × MgrState :=
      match alGet s.cacheKeyToUser keyID with
      | some u =>
        match alGet s.cacheKeysets u with
        | some ks => (some ks, s)
        | none =>
          match getUserKeysetRepo s.store u loadFault with
          | .ok ks => (some ks, { s with cacheKeysets := alSet s.cacheKeysets u ks })
          | .error _ => (none, s)
      | none => (none, s)
    match rev with
    | (some ks, s1) => finishLookup s1 ks keyID
    | (none, s1) =>
      match findKeysetByKeyID s1.store keyID with
      | none => (.error .notFoundStorage, s1)
      | some ks =>
        finishLookup { s1 with cacheKeysets := alSet s1.cacheKeysets ks.userID ks } ks keyID

/-- `jwkManager.GetUserPublicKeys` (`part_005:369-399`): like
`GetSessionKeys`, reads the store directly, never the cache. -/
def getUserPublicKeys (s : MgrState) (userID : Nat) (loadFault : Bool) :
    Except LoadErr (List Nat) :=
  match getUserKeysetRepo s.store userID loadFault with
  | .error .notFound => .ok []
  | .error .ioErr => .error .ioErr
  | .ok ks => .ok (collectMaterials ks.keyData)

/-! ### `LRUCache` (`internal/manager/lru_cache.go`)

The `evictList` is modelled as a list of items, head = front (most recently
used), last = back (least recently used); the `items` hash map of the Go
struct is an index into the very same elements, so the list alone carries the
state.  Keys in the list are unique, hence removing "the element with this
key" is a filter.  Time is a `Nat` nanosecond reading passed explicitly;
`time.Since(ts)` is `now - ts`, `ttl = 0` models `c.ttl <= 0`. -/

structure CacheItem where
  key : String
  value : Nat
  timestamp : Nat
deriving DecidableEq, Repr

structure LRUCache where
  capacity : Nat
  ttl : Nat
  items : List CacheItem
deriving DecidableEq, Repr

def removeKeyItems (items : List CacheItem) (key : String) : List CacheItem :=
  items.filter fun it => !(it.key == key)

/-- `LRUCache.Get`: expired hit is a miss and evicts the entry; a live hit is
moved to the front without touching its timestamp. -/
def lruGet (c : LRUCache) (key : String) (now : Nat) : Option Nat × LRUCache :=
  match c.items.find? (fun it => it.key == key) with
  | none => (none, c)
  | some it =>
    if 0 < c.ttl ∧ c.ttl < now - it.timestamp then
      (none, { c with items := removeKeyItems c.items key })
    else
      (some it.value, { c with items := it :: removeKeyItems c.items key })

/-- `LRUCache.Put`: update-in-place refreshes the timestamp and moves to the
front; an insert pushes to the front and evicts the back beyond capacity. -/
def lruPut (c : LRUCache) (key : String) (value : Nat) (now : Nat) : LRUCache :=
  match c.items.find? (fun it => it.key == key) with
  | some _ => { c with items := ⟨key, value, now⟩ :: removeKeyItems c.items key }
  | none =>
    let items1 := (⟨key, value, now⟩ : CacheItem) :: c.items
    if items1.length > c.capacity then { c with items := items1.dropLast }
    else { c with items := items1 }

/-- `LRUCache.CleanupExpired`: walk from the back, collect while expired and
`break` at the first non-expired item. -/
def lruCleanupExpired (c : LRUCache) (now : Nat) : Nat × LRUCache :=
  if c.ttl = 0 then (0, c)
  else
    let isExp : CacheItem → Bool := fun it => decide (c.ttl < now - it.timestamp)
    let rev := c.items.reverse
    ((rev.takeWhile isExp).length, { c with items := (rev.dropWhile isExp).reverse })

/-! ### The `kid` extraction step of `VerifyTokenSignatureAndGetClaims`
(`internal/manager/jwt.go:94`, `part_004:97`)

After `jws.Parse` and `json.Unmarshal` have succeeded, the payload is a
`map[string]interface{}`; the source reads `payload["kid"].(string)` — an
unchecked Go type assertion, which panics at run time when the entry is
absent or not a string. -/

inductive JsonVal where
  | str (s : String)
  | num (n : Nat)
  | boolean (b : Bool)
  | null
deriving DecidableEq, Repr

inductive KidExtraction where
  | panicked
  | proceedToLookup (kid : String)
deriving DecidableEq, Repr

def verifyKidStep (payload : List (String × JsonVal)) : KidExtraction :=
  match alGet payload "kid" with
  | some (.str s) => .proceedToLookup s
  | _ => .panicked

/-! ### Derived notions used by the statements below -/

/-- The `kid` attribute of one `KeyData` entry, when it parses. -/
def entryKid (p : String × SerializedKey) : Option String :=
  (parseKey p.2).bind (·.kid)

/-- How many entries of a keyset carry the given `kid`. -/
def kidCount (kd : KeyData) (K : String) : Nat :=
  kd.countP fun p => entryKid p = some K

/-- One `CreateSessionKey` call's inputs: the caller-supplied pair, the
`time.Now().UnixNano()` reading, the generated material, and the injected
repository faults. -/
structure CreateCall where
  userID : Nat
  deviceType : String
  nonce : Nat
  material : Nat
  loadFault : Bool
  saveFault : Bool
deriving DecidableEq, Repr

def applyCreate (s : MgrState) (c : CreateCall) : MgrState :=
  (createSessionKey s c.userID c.deviceType c.nonce c.material c.loadFault c.saveFault).2

def applyCreates (cs : List CreateCall) : MgrState :=
  cs.foldl applyCreate initMgr

/-- The key ids `GetSessionKeys` reports (its error case never happens with
`loadFault = false`, the empty list stands in). -/
def sessionKidsOf (s : MgrState) (u : Nat) : List String :=
  match getSessionKeys s u false with
  | .ok l => l
  | .error _ => []

/-- Reference result of a signing-key lookup: what the cache-cold full scan
(`FindKeysetByKeyID` + the keyset scan of `GetPrivateKeyByID`) computes. -/
def specLookup (st : Store) (keyID : String) : Except LookupErr Nat :=
  match findKeysetByKeyID st keyID with
  | none => .error .notFoundStorage
  | some ks =>
    match findKeyInKeyData ks.keyData keyID with
    | none => .error (.notFoundKeyset ks.userID)
    | some k => .ok k.material

/-- The three externally observable read operations of the manager. -/
inductive ReadOp where
  | signingKey (keyID : String)
  | sessionKeys (u : Nat)
  | publicKeys (u : Nat)
deriving DecidableEq, Repr

inductive ReadOut where
  | key (r : Except LookupErr Nat)
  | kids (r : Except LoadErr (List String))
  | pubs (r : Except LoadErr (List Nat))
deriving DecidableEq, Repr

def runReadOp (s : MgrState) : ReadOp → ReadOut × MgrState
  | .signingKey kid =>
    let r := getPrivateKeyByID s kid false
    (.key r.1, r.2)
  | .sessionKeys u => (.kids (getSessionKeys s u false), s)
  | .publicKeys u => (.pubs (getUserPublicKeys s u false), s)

def runReadOps (s : MgrState) : List ReadOp → List ReadOut
  | [] => []
  | op :: t =>
    let r := runReadOp s op
    r.1 :: runReadOps r.2 t

/-- Store well-formedness: one row per user, and a `kid` value pins down both
its owning row and its entry (key ids are globally unique in the store). -/
def WFStore (st : Store) : Prop :=
  (st.map Prod.fst).Nodup ∧
  ∀ r1 ∈ st, ∀ p1 ∈ r1.2, ∀ r2 ∈ st, ∀ p2 ∈ r2.2,
    (entryKid p1).isSome → entryKid p1 = entryKid p2 → r1.1 = r2.1 ∧ p1 = p2

/-- Cache coherence ("still-valid keys"): every cached fact is true of the
durable store.  The empty cache is trivially coherent. -/
def CoherentCache (s : MgrState) : Prop :=
  (∀ q ∈ s.cacheParsed, q.2.kid = some q.1 ∧
    ∃ r ∈ s.store, ∃ p ∈ r.2, p.2 = .ser q.2) ∧
  (∀ q ∈ s.cacheKeysets, q.2.userID = q.1 ∧
    ∃ r ∈ s.store, r.1 = q.1 ∧ r.2 = q.2.keyData) ∧
  (∀ q ∈ s.cacheKeyToUser,
    ∃ r ∈ s.store, r.1 = q.2 ∧ (findKeyInKeyData r.2 q.1).isSome = true)

/-- Shape of a keyset row produced by `createSessionKey` alone: one entry per
device type, and every stored key's `kid` is the structured id built from its
own device type and owning user. -/
def CreatedRow (u : Nat) (kd : KeyData) : Prop :=
  (kd.map Prod.fst).Nodup ∧
  ∀ p ∈ kd, ∃ k nn, p.2 = SerializedKey.ser k ∧ k.kid = some (mkKeyID p.1 u nn)

def CreatedStore (st : Store) : Prop :=
  ∀ r ∈ st, CreatedRow r.1 r.2

/-- The item carrying a key in an `LRUCache`, if any (the `items` map lookup). -/
def itemOf (c : LRUCache) (k : String) : Option CacheItem :=
  c.items.find? fun it => it.key == k

/-- Fold a sequence of `Get` calls (key, clock reading) over a cache. -/
def applyGets (c : LRUCache) (ops : List (String × Nat)) : LRUCache :=
  ops.foldl (fun c p => (lruGet c p.1 p.2).2) c

/-! ## Theorems -/

/-! ### Decimal printing and key-id structure -/

theorem natDigitsF_congr {f1 : Nat} : ∀ {f2 n : Nat}, n < f1 → n < f2 →
    natDigitsF f1 n = natDigitsF f2 n := by
  induction f1 with
  | zero => intro f2 n h1 _; exact absurd h1 (Nat.not_lt_zero n)
  | succ f1 ih =>
    intro f2 n h1 h2
    cases f2 with
    | zero => exact absurd h2 (Nat.not_lt_zero n)
    | succ f2 =>
      simp only [natDigitsF]
      by_cases h : n < 10
      · simp [h]
      · have hdiv : n / 10 < n := Nat.div_lt_self (by omega) (by omega)
        rw [if_neg h, if_neg h]
        exact congrArg (fun l => l ++ [digitChar (n % 10)]) (ih (by omega) (by omega))
theorem natDigits_lt {n : Nat} (h : n < 10) : natDigits n = [digitChar n] := by
  simp [natDigits, natDigitsF, h]
theorem natDigits_ge {n : Nat} (h : ¬ n < 10) :
    natDigits n = natDigits (n / 10) ++ [digitChar (n % 10)] := by
  have hdiv : n / 10 < n := Nat.div_lt_self (by omega) (by omega)
  show natDigitsF (n + 1) n = _
  rw [natDigitsF, if_neg h]
  exact congrArg (· ++ _) (natDigitsF_congr (by omega) (by omega))
theorem digitChar_ne_hyphen (d : Nat) : digitChar d ≠ '-' := by
  unfold digitChar; split <;> decide
theorem digitVal_digitChar (d : Nat) (h : d < 10) : digitVal (digitChar d) = d := by
  interval_cases d <;> decide
theorem natDigits_no_hyphen (n : Nat) : ∀ c ∈ natDigits n, c ≠ '-' := by
  induction n using Nat.strong_induction_on with
  | _ n ih =>
    intro c hc
    by_cases h : n < 10
    · rw [natDigits_lt h] at hc
      simp at hc
      subst hc; exact digitChar_ne_hyphen n
    · rw [natDigits_ge h] at hc
      simp at hc
      rcases hc with hc | hc
      · exact ih (n / 10) (Nat.div_lt_self (by omega) (by omega)) c hc
      · subst hc; exact digitChar_ne_hyphen (n % 10)
theorem digitsVal_append (xs ys : List Char) :
    digitsVal (xs ++ ys) = (ys.foldl (fun a c => 10 * a + digitVal c) (digitsVal xs)) := by
  simp [digitsVal, List.foldl_append]
theorem digitsVal_natDigits (n : Nat) : digitsVal (natDigits n) = n := by
  induction n using Nat.strong_induction_on with
  | _ n ih =>
    by_cases h : n < 10
    · rw [natDigits_lt h]
      simp [digitsVal, digitVal_digitChar n h]
    · rw [natDigits_ge h, digitsVal_append,
        ih (n / 10) (Nat.div_lt_self (by omega) (by omega))]
      simp [List.foldl, digitVal_digitChar (n % 10) (Nat.mod_lt n (by omega))]
      omega
theorem natDigits_inj {m n : Nat} (h : natDigits m = natDigits n) : m = n := by
  have := congrArg digitsVal h
  rwa [digitsVal_natDigits, digitsVal_natDigits] at this
theorem takeWhile_append_cons {p : Char → Bool} {l₁ l₂ : List Char} {b : Char}
    (h₁ : ∀ c ∈ l₁, p c) (hb : ¬ p b) :
    (l₁ ++ b :: l₂).takeWhile p = l₁ := by
  induction l₁ with
  | nil => simp [List.takeWhile, hb]
  | cons x xs ih =>
    have hx : p x := h₁ x (by simp)
    simp [List.takeWhile, hx, ih (fun c hc => h₁ c (by simp [hc]))]
theorem dropWhile_append_cons {p : Char → Bool} {l₁ l₂ : List Char} {b : Char}
    (h₁ : ∀ c ∈ l₁, p c) (hb : ¬ p b) :
    (l₁ ++ b :: l₂).dropWhile p = b :: l₂ := by
  induction l₁ with
  | nil => simp [List.dropWhile, hb]
  | cons x xs ih =>
    have hx : p x := h₁ x (by simp)
    simp [List.dropWhile, hx, ih (fun c hc => h₁ c (by simp [hc]))]
theorem splitLast_append (xs ys : List Char) (hys : ∀ c ∈ ys, c ≠ '-') :
    splitLast (xs ++ '-' :: ys) = some (xs, ys) := by
  have hrev : (xs ++ '-' :: ys).reverse = ys.reverse ++ '-' :: xs.reverse := by
    simp
  have hmem : ∀ c ∈ ys.reverse, (fun c => c ≠ '-' : Char → Bool) c = true := by
    intro c hc
    simp only [ne_eq, decide_eq_true_eq]
    exact hys c (List.mem_reverse.mp hc)
  have hb : ¬ ((fun c => c ≠ '-' : Char → Bool) '-' = true) := by decide
  unfold splitLast
  rw [hrev, dropWhile_append_cons hmem hb, takeWhile_append_cons hmem hb]
  simp
theorem hyphenFree_last_cancel {xs1 xs2 ys1 ys2 : List Char}
    (h1 : ∀ c ∈ ys1, c ≠ '-') (h2 : ∀ c ∈ ys2, c ≠ '-')
    (h : xs1 ++ '-' :: ys1 = xs2 ++ '-' :: ys2) : xs1 = xs2 ∧ ys1 = ys2 := by
  have := congrArg splitLast h
  rw [splitLast_append xs1 ys1 h1, splitLast_append xs2 ys2 h2] at this
  injection this with this
  exact ⟨congrArg Prod.fst this, congrArg Prod.snd this⟩
theorem mkKeyID_data (d : String) (u n : Nat) :
    (mkKeyID d u n).data = (d.data ++ '-' :: natDigits u) ++ '-' :: natDigits n := by
  simp [mkKeyID, natRepr, String.data_append]
theorem kidCategory_mkKeyID (d : String) (u n : Nat) :
    kidCategory (mkKeyID d u n) = some d := by
  unfold kidCategory
  rw [mkKeyID_data,
    splitLast_append (d.data ++ '-' :: natDigits u) (natDigits n) (natDigits_no_hyphen n)]
  simp only [Option.some_bind]
  rw [splitLast_append d.data (natDigits u) (natDigits_no_hyphen u)]
  rfl
theorem mkKeyID_inj {d1 d2 : String} {u1 u2 n1 n2 : Nat}
    (h : mkKeyID d1 u1 n1 = mkKeyID d2 u2 n2) : d1 = d2 ∧ u1 = u2 ∧ n1 = n2 := by
  have hd := congrArg String.data h
  rw [mkKeyID_data, mkKeyID_data] at hd
  obtain ⟨h1, hn⟩ :=
    hyphenFree_last_cancel (natDigits_no_hyphen n1) (natDigits_no_hyphen n2) hd
  obtain ⟨h2, hu⟩ :=
    hyphenFree_last_cancel (natDigits_no_hyphen u1) (natDigits_no_hyphen u2) h1
  exact ⟨congrArg String.mk h2, natDigits_inj hu, natDigits_inj hn⟩

/-! ### Association-list lemmas -/

section AlLemmas

variable {κ ν : Type} [DecidableEq κ]

theorem mem_of_alGet {l : List (κ × ν)} {k : κ} {v : ν}
    (h : alGet l k = some v) : (k, v) ∈ l := by
  induction l with
  | nil => simp [alGet] at h
  | cons p t ih =>
    obtain ⟨pk, pv⟩ := p
    simp only [alGet] at h
    by_cases hk : pk = k
    · rw [if_pos hk] at h
      injection h with h
      subst hk; subst h; exact List.mem_cons_self _ _
    · rw [if_neg hk] at h
      exact List.mem_cons_of_mem _ (ih h)

theorem alGet_of_mem_nodup {l : List (κ × ν)} {k : κ} {v : ν}
    (hn : (l.map Prod.fst).Nodup) (hm : (k, v) ∈ l) : alGet l k = some v := by
  induction l with
  | nil => simp at hm
  | cons p t ih =>
    obtain ⟨pk, pv⟩ := p
    simp only [List.map_cons, List.nodup_cons] at hn
    rcases List.mem_cons.mp hm with h | h
    · injection h with h1 h2
      simp [alGet, h1, h2]
    · have hpk : pk ≠ k := by
        intro hc; subst hc
        exact hn.1 (List.mem_map.mpr ⟨(pk, v), h, rfl⟩)
      simp only [alGet, if_neg hpk]
      exact ih hn.2 h

theorem alGet_alDel_self (l : List (κ × ν)) (k : κ) : alGet (alDel l k) k = none := by
  induction l with
  | nil => rfl
  | cons p t ih =>
    obtain ⟨pk, pv⟩ := p
    by_cases hk : pk = k
    · simp [alDel, hk, ih]
    · simp [alDel, alGet, hk, ih]

theorem alGet_alDel_ne {l : List (κ × ν)} {k k' : κ} (h : k' ≠ k) :
    alGet (alDel l k) k' = alGet l k' := by
  induction l with
  | nil => rfl
  | cons p t ih =>
    obtain ⟨pk, pv⟩ := p
    by_cases hk : pk = k
    · subst hk
      simp [alDel, alGet, Ne.symm h, ih]
    · simp [alDel, alGet, hk, ih]

theorem alDel_eq_filter (l : List (κ × ν)) (k : κ) :
    alDel l k = l.filter (fun p => decide (p.1 ≠ k)) := by
  induction l with
  | nil => rfl
  | cons q t ih =>
    obtain ⟨qk, qv⟩ := q
    by_cases hk : qk = k
    · simp [alDel, List.filter, hk, ih]
    · simp [alDel, List.filter, hk, ih]

theorem mem_alDel {l : List (κ × ν)} {p : κ × ν} {k : κ} :
    p ∈ alDel l k ↔ p ∈ l ∧ p.1 ≠ k := by
  rw [alDel_eq_filter, List.mem_filter]
  simp

theorem alDel_sublist (l : List (κ × ν)) (k : κ) : (alDel l k).Sublist l := by
  rw [alDel_eq_filter]
  exact List.filter_sublist l

theorem mem_alSet {l : List (κ × ν)} {p : κ × ν} {k : κ} {v : ν}
    (h : p ∈ alSet l k v) : p = (k, v) ∨ p ∈ l := by
  induction l with
  | nil =>
    rw [show alSet ([] : List (κ × ν)) k v = [(k, v)] from rfl] at h
    exact Or.inl (List.mem_singleton.mp h)
  | cons q t ih =>
    obtain ⟨qk, qv⟩ := q
    by_cases hk : qk = k
    · rw [show alSet ((qk, qv) :: t) k v = (k, v) :: t from by rw [alSet, if_pos hk]] at h
      rcases List.mem_cons.mp h with h | h
      · exact Or.inl h
      · exact Or.inr (List.mem_cons_of_mem _ h)
    · rw [show alSet ((qk, qv) :: t) k v = (qk, qv) :: alSet t k v from by
        rw [alSet, if_neg hk]] at h
      rcases List.mem_cons.mp h with h | h
      · exact Or.inr (List.mem_cons.mpr (Or.inl h))
      · rcases ih h with h | h
        · exact Or.inl h
        · exact Or.inr (List.mem_cons_of_mem _ h)

theorem mem_alSet_nodup {l : List (κ × ν)} {p : κ × ν} {k : κ} {v : ν}
    (hn : (l.map Prod.fst).Nodup) (h : p ∈ alSet l k v) :
    p = (k, v) ∨ (p ∈ l ∧ p.1 ≠ k) := by
  induction l with
  | nil =>
    rw [show alSet ([] : List (κ × ν)) k v = [(k, v)] from rfl] at h
    exact Or.inl (List.mem_singleton.mp h)
  | cons q t ih =>
    obtain ⟨qk, qv⟩ := q
    simp only [List.map_cons, List.nodup_cons] at hn
    by_cases hk : qk = k
    · subst hk
      rw [show alSet ((qk, qv) :: t) qk v = (qk, v) :: t from by rw [alSet, if_pos rfl]] at h
      rcases List.mem_cons.mp h with h | h
      · exact Or.inl h
      · have hp1 : p.1 ≠ qk := by
          intro hc
          exact hn.1 (List.mem_map.mpr ⟨p, h, hc⟩)
        exact Or.inr ⟨List.mem_cons_of_mem _ h, hp1⟩
    · rw [show alSet ((qk, qv) :: t) k v = (qk, qv) :: alSet t k v from by
        rw [alSet, if_neg hk]] at h
      rcases List.mem_cons.mp h with h | h
      · subst h; exact Or.inr ⟨List.mem_cons_self _ _, hk⟩
      · rcases ih hn.2 h with h | ⟨h1, h2⟩
        · exact Or.inl h
        · exact Or.inr ⟨List.mem_cons_of_mem _ h1, h2⟩

theorem alGet_alSet_self (l : List (κ × ν)) (k : κ) (v : ν) :
    alGet (alSet l k v) k = some v := by
  induction l with
  | nil => simp [alSet, alGet]
  | cons q t ih =>
    obtain ⟨qk, qv⟩ := q
    by_cases hk : qk = k
    · simp [alSet, alGet, hk]
    · simp [alSet, alGet, hk, ih]

theorem alGet_alSet_ne {l : List (κ × ν)} {k k' : κ} {v : ν} (h : k' ≠ k) :
    alGet (alSet l k v) k' = alGet l k' := by
  induction l with
  | nil => simp [alSet, alGet, Ne.symm h]
  | cons q t ih =>
    obtain ⟨qk, qv⟩ := q
    by_cases hk : qk = k
    · subst hk
      simp [alSet, alGet, Ne.symm h, ih]
    · simp [alSet, alGet, hk, ih]

theorem fst_mem_alSet {l : List (κ × ν)} {a k : κ} {v : ν}
    (h : a ∈ (alSet l k v).map Prod.fst) : a = k ∨ a ∈ l.map Prod.fst := by
  rcases List.mem_map.mp h with ⟨p, hp, rfl⟩
  rcases mem_alSet hp with h | h
  · exact Or.inl (congrArg Prod.fst h)
  · exact Or.inr (List.mem_map.mpr ⟨p, h, rfl⟩)

theorem alSet_map_fst_nodup {l : List (κ × ν)} {k : κ} {v : ν}
    (hn : (l.map Prod.fst).Nodup) : ((alSet l k v).map Prod.fst).Nodup := by
  induction l with
  | nil => simp [alSet]
  | cons q t ih =>
    obtain ⟨qk, qv⟩ := q
    simp only [List.map_cons, List.nodup_cons] at hn
    by_cases hk : qk = k
    · subst hk
      rw [show alSet ((qk, qv) :: t) qk v = (qk, v) :: t from by rw [alSet, if_pos rfl]]
      simp only [List.map_cons, List.nodup_cons]
      exact hn
    · rw [show alSet ((qk, qv) :: t) k v = (qk, qv) :: alSet t k v from by
        rw [alSet, if_neg hk]]
      simp only [List.map_cons, List.nodup_cons]
      refine ⟨fun hc => ?_, ih hn.2⟩
      rcases fst_mem_alSet hc with h | h
      · exact hk h
      · exact hn.1 h

theorem alDel_map_fst_nodup {l : List (κ × ν)} {k : κ}
    (hn : (l.map Prod.fst).Nodup) : ((alDel l k).map Prod.fst).Nodup :=
  hn.sublist ((alDel_sublist l k).map Prod.fst)

theorem countP_fst_le_one {l : List (κ × ν)} (hn : (l.map Prod.fst).Nodup) (D : κ) :
    l.countP (fun p => decide (p.1 = D)) ≤ 1 := by
  induction l with
  | nil => simp
  | cons q t ih =>
    simp only [List.map_cons, List.nodup_cons] at hn
    by_cases hq : q.1 = D
    · rw [List.countP_cons_of_pos _ _ (by simpa using hq)]
      have hz : t.countP (fun p => decide (p.1 = D)) = 0 := by
        rw [List.countP_eq_zero]
        intro p hp
        simp only [decide_eq_true_eq]
        intro hc
        exact hn.1 (List.mem_map.mpr ⟨p, hp, by rw [hc, hq]⟩)
      omega
    · rw [List.countP_cons_of_neg _ _ (by simpa using hq)]
      exact ih hn.2

end AlLemmas

/-! ### Scan lemmas -/

theorem entryKid_eq_some {p : String × SerializedKey} {K : String}
    (h : entryKid p = some K) : ∃ k, p.2 = SerializedKey.ser k ∧ k.kid = some K := by
  obtain ⟨_, sk⟩ := p
  cases sk with
  | ser k => exact ⟨k, rfl, by simpa [entryKid, parseKey] using h⟩
  | corrupt t => simp [entryKid, parseKey] at h

theorem findKeyInKeyData_eq_none_iff {kd : KeyData} {K : String} :
    findKeyInKeyData kd K = none ↔ ∀ p ∈ kd, entryKid p ≠ some K := by
  induction kd with
  | nil => simp [findKeyInKeyData]
  | cons p t ih =>
    obtain ⟨dt, sk⟩ := p
    cases sk with
    | ser k =>
      by_cases hk : k.kid = some K
      · simp [findKeyInKeyData, parseKey, hk, entryKid]
      · simp [findKeyInKeyData, parseKey, hk, ih, entryKid]
    | corrupt tag =>
      simp [findKeyInKeyData, parseKey, ih, entryKid]

theorem findKeyInKeyData_some {kd : KeyData} {K : String} {k : JwkKey}
    (h : findKeyInKeyData kd K = some k) :
    k.kid = some K ∧ ∃ p ∈ kd, p.2 = SerializedKey.ser k := by
  induction kd with
  | nil => simp [findKeyInKeyData] at h
  | cons p t ih =>
    obtain ⟨dt, sk⟩ := p
    cases sk with
    | ser k0 =>
      by_cases hk : k0.kid = some K
      · rw [findKeyInKeyData] at h
        simp only [parseKey, if_pos hk] at h
        injection h with h
        subst h
        exact ⟨hk, (dt, .ser k0), List.mem_cons_self _ _, rfl⟩
      · rw [findKeyInKeyData] at h
        simp only [parseKey, if_neg hk] at h
        have h2 := ih h
        exact ⟨h2.1, h2.2.elim fun p hp => ⟨p, List.mem_cons_of_mem _ hp.1, hp.2⟩⟩
    | corrupt tag =>
      rw [findKeyInKeyData] at h
      simp only [parseKey] at h
      have h2 := ih h
      exact ⟨h2.1, h2.2.elim fun p hp => ⟨p, List.mem_cons_of_mem _ hp.1, hp.2⟩⟩

theorem findKeysetByKeyID_eq_none_iff {st : Store} {K : String} :
    findKeysetByKeyID st K = none ↔ ∀ r ∈ st, findKeyInKeyData r.2 K = none := by
  induction st with
  | nil => simp [findKeysetByKeyID]
  | cons r t ih =>
    obtain ⟨u, kd⟩ := r
    cases hf : findKeyInKeyData kd K with
    | none => simp [findKeysetByKeyID, hf, ih]
    | some k => simp [findKeysetByKeyID, hf]

theorem findKeysetByKeyID_some {st : Store} {K : String} {ks : UserKeyset}
    (h : findKeysetByKeyID st K = some ks) :
    (ks.userID, ks.keyData) ∈ st ∧ (findKeyInKeyData ks.keyData K).isSome := by
  induction st with
  | nil => simp [findKeysetByKeyID] at h
  | cons r t ih =>
    obtain ⟨u, kd⟩ := r
    cases hf : findKeyInKeyData kd K with
    | none =>
      rw [findKeysetByKeyID] at h
      simp only [hf, Option.isSome_none, Bool.false_eq_true, if_false] at h
      have h2 := ih h
      exact ⟨List.mem_cons_of_mem _ h2.1, h2.2⟩
    | some k =>
      rw [findKeysetByKeyID] at h
      simp only [hf, Option.isSome_some, if_true] at h
      injection h with h
      subst h
      simp [hf]

theorem findDeviceTypeByKid_some {kd : KeyData} {K dt : String}
    (h : findDeviceTypeByKid kd K = some dt) :
    ∃ sk k, (dt, sk) ∈ kd ∧ parseKey sk = some k ∧ k.kid = some K := by
  induction kd with
  | nil => simp [findDeviceTypeByKid] at h
  | cons p t ih =>
    obtain ⟨dt0, sk0⟩ := p
    cases sk0 with
    | ser k0 =>
      by_cases hk : k0.kid = some K
      · rw [findDeviceTypeByKid] at h
        simp only [parseKey, if_pos hk] at h
        injection h with h
        subst h
        exact ⟨.ser k0, k0, List.mem_cons_self _ _, rfl, hk⟩
      · rw [findDeviceTypeByKid] at h
        simp only [parseKey, if_neg hk] at h
        obtain ⟨sk, k, hm, hp, hkk⟩ := ih h
        exact ⟨sk, k, List.mem_cons_of_mem _ hm, hp, hkk⟩
    | corrupt tag =>
      rw [findDeviceTypeByKid] at h
      simp only [parseKey] at h
      obtain ⟨sk, k, hm, hp, hkk⟩ := ih h
      exact ⟨sk, k, List.mem_cons_of_mem _ hm, hp, hkk⟩

theorem kidCount_eq_zero_iff {kd : KeyData} {K : String} :
    kidCount kd K = 0 ↔ ∀ p ∈ kd, entryKid p ≠ some K := by
  simp [kidCount, List.countP_eq_zero]

theorem two_le_countP_of_two_mem {α : Type} {l : List α} {p q : α} {pr : α → Bool}
    (hp : p ∈ l) (hq : q ∈ l) (hne : p ≠ q) (hpp : pr p) (hpq : pr q) :
    2 ≤ l.countP pr := by
  induction l with
  | nil => simp at hp
  | cons x t ih =>
    rcases List.mem_cons.mp hp with hpx | hpt
    · subst hpx
      have hqt : q ∈ t := by
        rcases List.mem_cons.mp hq with hqx | hqt
        · exact absurd hqx.symm hne
        · exact hqt
      rw [List.countP_cons_of_pos _ _ hpp]
      have : 0 < t.countP pr := List.countP_pos_iff.mpr ⟨q, hqt, hpq⟩
      omega
    · rcases List.mem_cons.mp hq with hqx | hqt
      · subst hqx
        rw [List.countP_cons_of_pos _ _ hpq]
        have : 0 < t.countP pr := List.countP_pos_iff.mpr ⟨p, hpt, hpp⟩
        omega
      · have := ih hpt hqt
        rw [List.countP_cons]
        omega

/-! ### Characterization of `createSessionKey`'s durable effect -/

theorem createSessionKey_store (s : MgrState) (u : Nat) (dt : String) (nn m : Nat)
    (lf sf : Bool) :
    (createSessionKey s u dt nn m lf sf).2.store =
      if sf then s.store
      else
        (let base :=
          match getUserKeysetRepo s.store u lf with
          | .ok ks => ks.keyData
          | .error _ => []
        saveUserKeysetRepo s.store u
          (alSet (if (alGet base dt).isSome then alDel base dt else base)
            dt (.ser ⟨some (mkKeyID dt u nn), m⟩))) := by
  simp only [createSessionKey, UserKeyset.hasDeviceKey, UserKeyset.getDeviceKey,
    UserKeyset.removeDeviceKey, UserKeyset.setDeviceKey]
  cases hload : getUserKeysetRepo s.store u lf with
  | error e =>
    cases sf <;> simp [hload, alGet]
  | ok ks =>
    cases sf
    · by_cases hhas : (alGet ks.keyData dt).isSome
      · simp only [hload, hhas, if_true, if_pos, Bool.false_eq_true, ite_false]
        split <;> first
        | rfl
        | (split <;> rfl)
      · simp [hload, hhas]
    · by_cases hhas : (alGet ks.keyData dt).isSome
      · simp only [hload, hhas, if_true, if_pos, Bool.true_eq_false, ite_true]
        split <;> first
        | rfl
        | (split <;> rfl)
      · simp [hload, hhas]

theorem getUserKeysetRepo_ok_inv {st : Store} {u : Nat} {f : Bool} {ks : UserKeyset}
    (h : getUserKeysetRepo st u f = .ok ks) :
    ks.userID = u ∧ alGet st u = some ks.keyData := by
  unfold getUserKeysetRepo at h
  cases f
  · cases halget : alGet st u with
    | none => simp [halget] at h
    | some kd =>
      simp only [Bool.false_eq_true, if_false, halget] at h
      injection h with h
      rw [← h]
      exact ⟨rfl, rfl⟩
  · simp at h

theorem createdRow_nil (u : Nat) : CreatedRow u [] :=
  ⟨List.nodup_nil, by simp⟩

theorem createdRow_alDel {u : Nat} {kd : KeyData} (h : CreatedRow u kd) (dt : String) :
    CreatedRow u (alDel kd dt) :=
  ⟨alDel_map_fst_nodup h.1, fun p hp => h.2 p (mem_alDel.mp hp).1⟩

theorem createdRow_alSet {u : Nat} {kd : KeyData} (h : CreatedRow u kd)
    (dt : String) (nn m : Nat) :
    CreatedRow u (alSet kd dt (.ser ⟨some (mkKeyID dt u nn), m⟩)) := by
  refine ⟨alSet_map_fst_nodup h.1, fun p hp => ?_⟩
  rcases mem_alSet hp with hp | hp
  · subst hp
    exact ⟨⟨some (mkKeyID dt u nn), m⟩, nn, rfl, rfl⟩
  · exact h.2 p hp

theorem createdStore_preserved (s : MgrState) (c : CreateCall)
    (h : CreatedStore s.store) : CreatedStore (applyCreate s c).store := by
  unfold applyCreate
  intro r hr
  rw [createSessionKey_store] at hr
  by_cases hsf : c.saveFault
  · rw [if_pos hsf] at hr
    exact h r hr
  · rw [if_neg hsf] at hr
    simp only [saveUserKeysetRepo] at hr
    have hbase : CreatedRow c.userID
        (match getUserKeysetRepo s.store c.userID c.loadFault with
         | .ok ks => ks.keyData
         | .error _ => []) := by
      cases hload : getUserKeysetRepo s.store c.userID c.loadFault with
      | ok ks =>
        obtain ⟨hu, halget⟩ := getUserKeysetRepo_ok_inv hload
        exact h (c.userID, ks.keyData) (mem_of_alGet halget)
      | error e => exact createdRow_nil _
    rcases mem_alSet hr with hr | hr
    · subst hr
      refine createdRow_alSet ?_ c.deviceType c.nonce c.material
      split
      · exact createdRow_alDel hbase _
      · exact hbase
    · exact h r hr

theorem createdStore_applyCreates (cs : List CreateCall) :
    CreatedStore (applyCreates cs).store := by
  unfold applyCreates
  have hgen : ∀ s : MgrState, CreatedStore s.store →
      CreatedStore (cs.foldl applyCreate s).store := by
    induction cs with
    | nil => exact fun s hs => hs
    | cons c t ih =>
      intro s hs
      exact ih _ (createdStore_preserved s c hs)
  exact hgen initMgr (by intro r hr; simp [initMgr] at hr)

theorem collectKids_countP {u : Nat} {kd : KeyData}
    (h : ∀ p ∈ kd, ∃ k nn, p.2 = SerializedKey.ser k ∧ k.kid = some (mkKeyID p.1 u nn))
    (D : String) :
    (collectKids kd).countP (fun kid => decide (kidCategory kid = some D)) =
      kd.countP (fun p => decide (p.1 = D)) := by
  induction kd with
  | nil => rfl
  | cons p t ih =>
    obtain ⟨k, nn, hser, hkid⟩ := h p (List.mem_cons_self _ _)
    have ht := ih fun q hq => h q (List.mem_cons_of_mem _ hq)
    obtain ⟨dt0, sk0⟩ := p
    simp only at hser hkid
    subst hser
    have hhead : (parseKey (SerializedKey.ser k)).bind (·.kid) =
        some (mkKeyID dt0 u nn) := by simp [parseKey, hkid]
    simp only [collectKids, List.filterMap_cons, hhead]
    rw [List.countP_cons, List.countP_cons]
    simp only [collectKids] at ht
    rw [ht]
    have hcond : (decide (kidCategory (mkKeyID dt0 u nn) = some D)) = decide (dt0 = D) := by
      rw [kidCategory_mkKeyID]
      by_cases hd : dt0 = D
      · simp [hd]
      · simp [hd]
    simp [hcond]

theorem sessionKidsOf_eq (s : MgrState) (u : Nat) :
    sessionKidsOf s u = collectKids ((alGet s.store u).getD []) := by
  unfold sessionKidsOf getSessionKeys getUserKeysetRepo
  cases halget : alGet s.store u <;> simp [halget, collectKids]

/-! ### C1: the single-device invariant -/

/-- C1: after any sequence of `createSessionKey` calls (any users, device
categories, clock readings, injected faults), every user's durable keyset
holds at most one device key stored under category D, and the key ids
reported by `GetSessionKeys` contain at most one id whose structured
category segment is D. -/
theorem c1_single_device_invariant (cs : List CreateCall) (u : Nat) (D : String) :
    ((alGet (applyCreates cs).store u).getD []).countP (fun p => decide (p.1 = D)) ≤ 1 ∧
    (sessionKidsOf (applyCreates cs) u).countP
      (fun kid => decide (kidCategory kid = some D)) ≤ 1 := by
  have hst := createdStore_applyCreates cs
  cases halget : alGet (applyCreates cs).store u with
  | none => simp [sessionKidsOf_eq, halget, collectKids]
  | some kd =>
    have hrow : CreatedRow u kd := hst (u, kd) (mem_of_alGet halget)
    constructor
    · simpa [halget] using countP_fst_le_one hrow.1 D
    · rw [sessionKidsOf_eq, halget]
      simp only [Option.getD_some]
      rw [collectKids_countP hrow.2 D]
      exact countP_fst_le_one hrow.1 D

/-! ### C3: `CreateSessionKey` swallows load I/O errors -/

/-- C3: the claim says a store I/O error during the initial keyset load is
surfaced and `createSessionKey` fails.  The code instead treats every load
error as "no keyset exists": with a keyset durably stored for user 1 and an
injected I/O failure on the load, the call still succeeds and durably
replaces the user's whole keyset with one containing only the new key. -/
theorem c3_create_swallows_load_io_error :
    (let s : MgrState :=
      { store := [(1, [("web", .ser ⟨some "web-1-5", 3⟩)])],
        cacheParsed := [], cacheKeysets := [], cacheKeyToUser := [],
        legacyKeysets := [], legacyParsed := [], legacyKeyToUser := [] }
     let r := createSessionKey s 1 "android" 9 7 true false
     r.1 = .ok "android-1-9" ∧
     alGet r.2.store 1 = some [("android", .ser ⟨some "android-1-9", 7⟩)]) := by
  decide

/-! ### C7: the `kid` extraction of `VerifyTokenSignatureAndGetClaims` -/

/-- C7: the claim says a payload without a `kid`, or with a non-string or
empty `kid`, yields a malformed-token error and never panics or proceeds to
key lookup.  The modelled unchecked type assertion `payload["kid"].(string)`
panics on a missing or non-string `kid`, and an empty-string `kid` proceeds
straight to key lookup. -/
theorem c7_verify_kid_assertion_behavior :
    verifyKidStep [] = .panicked ∧
    verifyKidStep [("kid", .num 5)] = .panicked ∧
    verifyKidStep [("user_id", .num 7)] = .panicked ∧
    verifyKidStep [("kid", .str "")] = .proceedToLookup "" := by
  decide

/-! ### C8: `CleanupExpired` and LRU-promoted expired entries -/

/-- C8: the claim says that after `CleanupExpired` no entry older than the
TTL remains, including expired entries promoted by earlier `Get` calls.  With
TTL 3: put "a" at 0, put "b" at 1, `Get "a"` at 2 promotes "a" to the front
without refreshing its timestamp; `CleanupExpired` at time 4 then stops at
the non-expired back entry "b", returns 0 and leaves the expired entry "a"
in the cache (a later `Get "a"` still treats it as a miss). -/
theorem c8_cleanup_keeps_promoted_expired_entry :
    (let c2 := lruPut (lruPut ⟨10, 3, []⟩ "a" 100 0) "b" 200 1
     let c3 := (lruGet c2 "a" 2).2
     let r := lruCleanupExpired c3 4
     r.1 = 0 ∧
     r.2.items = [⟨"a", 100, 0⟩, ⟨"b", 200, 1⟩] ∧
     4 - (0 : Nat) > 3 ∧
     (lruGet r.2 "a" 4).1 = none) := by
  decide

/-! ### C9: key-id uniqueness -/

/-- C9 counterexample: two successful `createSessionKey` calls for the same
(user, deviceCategory) pair whose `UnixNano` readings coincide return the
same key id, so the returned key ids are not globally unique as claimed. -/
theorem c9_counterexample_same_nanosecond_collision :
    ((createSessionKey initMgr 1 "web" 5 3 false false).1 = .ok "web-1-5" ∧
     (createSessionKey (createSessionKey initMgr 1 "web" 5 3 false false).2
        1 "web" 5 4 false false).1 = .ok "web-1-5") := by
  decide

/-- C9 (amended): two successful `createSessionKey` calls return distinct key
ids provided they differ in device category, user id, or clock reading; only
calls agreeing on all three can collide. -/
theorem c9_keyID_unique_for_distinct_inputs
    (s1 s2 : MgrState) (u1 u2 n1 n2 m1 m2 : Nat) (d1 d2 : String)
    (lf1 sf1 lf2 sf2 : Bool) (id1 id2 : String)
    (h1 : (createSessionKey s1 u1 d1 n1 m1 lf1 sf1).1 = .ok id1)
    (h2 : (createSessionKey s2 u2 d2 n2 m2 lf2 sf2).1 = .ok id2)
    (hne : ¬ (d1 = d2 ∧ u1 = u2 ∧ n1 = n2)) : id1 ≠ id2 := by
  cases sf1
  · cases sf2
    · simp only [createSessionKey] at h1 h2
      simp at h1 h2
      subst h1; subst h2
      intro heq
      exact hne (mkKeyID_inj heq)
    · simp [createSessionKey] at h2
  · simp [createSessionKey] at h1

/-- C9 witness: concrete instantiation of `c9_keyID_unique_for_distinct_inputs`
at two calls with distinct clock readings. -/
theorem c9_keyID_unique_witness : ("web-1-5" : String) ≠ "web-1-6" :=
  c9_keyID_unique_for_distinct_inputs initMgr initMgr 1 1 5 6 3 3 "web" "web"
    false false false false "web-1-5" "web-1-6" (by decide) (by decide) (by decide)

/-! ### C2: cache state when the durable save inside `CreateSessionKey` fails -/

/-- C2 counterexample: the claim says that when `SaveUserKeyset` fails the
in-memory cache is left exactly as before the call, in particular the old
device key's entries are not purged.  With the old key "web-1-5" cached,
a create for the same device category whose save fails returns an error but
has already purged "web-1-5" from the parsed-key and reverse indices. -/
theorem c2_counterexample_purge_before_failed_save :
    (let s : MgrState :=
      { store := [(1, [("web", .ser ⟨some "web-1-5", 3⟩)])],
        cacheParsed := [("web-1-5", ⟨some "web-1-5", 3⟩)],
        cacheKeysets := [(1, ⟨1, [("web", .ser ⟨some "web-1-5", 3⟩)]⟩)],
        cacheKeyToUser := [("web-1-5", 1)],
        legacyKeysets := [], legacyParsed := [], legacyKeyToUser := [] }
     let r := createSessionKey s 1 "web" 9 7 false true
     r.1 = .error .saveFailed ∧
     alGet s.cacheParsed "web-1-5" = some ⟨some "web-1-5", 3⟩ ∧
     alGet r.2.cacheParsed "web-1-5" = none ∧
     alGet r.2.cacheKeyToUser "web-1-5" = none ∧
     r.2 ≠ s) := by
  decide

/-- C2 (amended): when the save fails, `createSessionKey` returns an error
and leaves the store, the keyset caches and the new key's indices untouched,
but the replaced old device key's entries have already been purged from the
parsed-key and reverse key-to-user indices (both optimized and legacy). -/
theorem c2_save_failure_purges_only_old_key
    (s : MgrState) (u n m : Nat) (dt oldKid : String)
    (row : KeyData) (sk : SerializedKey) (okey : JwkKey)
    (hrow : alGet s.store u = some row)
    (hsk : alGet row dt = some sk)
    (hparse : parseKey sk = some okey)
    (hkid : okey.kid = some oldKid) :
    createSessionKey s u dt n m false true =
      (.error .saveFailed,
       { s with
         cacheParsed := alDel s.cacheParsed oldKid
         cacheKeyToUser := alDel s.cacheKeyToUser oldKid
         legacyParsed := alDel s.legacyParsed oldKid
         legacyKeyToUser := alDel s.legacyKeyToUser oldKid }) := by
  have hser : sk = SerializedKey.ser okey := by
    cases sk with
    | ser k => simp [parseKey] at hparse; rw [hparse]
    | corrupt t => simp [parseKey] at hparse
  subst hser
  simp only [createSessionKey, getUserKeysetRepo]
  simp only [Bool.false_eq_true, if_false, ite_false]
  rw [hrow]
  simp only [UserKeyset.hasDeviceKey, UserKeyset.getDeviceKey, hsk, parseKey, hkid,
    Option.some_bind, Option.isSome_some, if_true]

/-- C2 witness: `c9`-style concrete instantiation of
`c2_save_failure_purges_only_old_key`. -/
theorem c2_save_failure_witness :
    createSessionKey
      { store := [(1, [("web", .ser ⟨some "web-1-5", 3⟩)])],
        cacheParsed := [("web-1-5", ⟨some "web-1-5", 3⟩)],
        cacheKeysets := [(1, ⟨1, [("web", .ser ⟨some "web-1-5", 3⟩)]⟩)],
        cacheKeyToUser := [("web-1-5", 1)],
        legacyKeysets := [], legacyParsed := [], legacyKeyToUser := [] }
      1 "web" 9 7 false true
    = (.error .saveFailed,
       { store := [(1, [("web", .ser ⟨some "web-1-5", 3⟩)])],
         cacheParsed := [],
         cacheKeysets := [(1, ⟨1, [("web", .ser ⟨some "web-1-5", 3⟩)]⟩)],
         cacheKeyToUser := [],
         legacyKeysets := [], legacyParsed := [], legacyKeyToUser := [] }) :=
  c2_save_failure_purges_only_old_key _ 1 9 7 "web" "web-1-5"
    [("web", .ser ⟨some "web-1-5", 3⟩)] (.ser ⟨some "web-1-5", 3⟩) ⟨some "web-1-5", 3⟩
    (by decide) (by decide) (by decide) (by decide)

/-! ### C4: deletion completeness -/

theorem deleteSessionKey_eq (s : MgrState) (u : Nat) (K : String) (kd : KeyData) (dt : String)
    (hrow : alGet s.store u = some kd)
    (hdt : findDeviceTypeByKid kd K = some dt) :
    deleteSessionKey s u K false false false =
      if (alDel kd dt).isEmpty then
        (.ok (),
         { store := alDel s.store u
           cacheParsed := alDel s.cacheParsed K
           cacheKeysets := alDel s.cacheKeysets u
           cacheKeyToUser := alDel s.cacheKeyToUser K
           legacyKeysets := alDel s.legacyKeysets u
           legacyParsed := alDel s.legacyParsed K
           legacyKeyToUser := alDel s.legacyKeyToUser K })
      else
        (.ok (),
         { store := alSet s.store u (alDel kd dt)
           cacheParsed := alDel s.cacheParsed K
           cacheKeysets := alSet s.cacheKeysets u ⟨u, alDel kd dt⟩
           cacheKeyToUser := alDel s.cacheKeyToUser K
           legacyKeysets := alSet s.legacyKeysets u ⟨u, alDel kd dt⟩
           legacyParsed := alDel s.legacyParsed K
           legacyKeyToUser := alDel s.legacyKeyToUser K }) := by
  simp only [deleteSessionKey, getUserKeysetRepo, Bool.false_eq_true, if_false, hrow]
  simp only [hdt, UserKeyset.removeDeviceKey, UserKeyset.isEmpty]
  by_cases he : (alDel kd dt).isEmpty
  · simp only [he, if_true, if_pos]
    simp [deleteUserKeysetRepo, hrow]
  · simp only [he, Bool.false_eq_true, if_false]
    simp [saveUserKeysetRepo]

theorem getPrivateKeyByID_notFound (s : MgrState) (K : String)
    (hp : alGet s.cacheParsed K = none)
    (hr : alGet s.cacheKeyToUser K = none)
    (hscan : findKeysetByKeyID s.store K = none) :
    (getPrivateKeyByID s K false).1 = .error .notFoundStorage := by
  simp only [getPrivateKeyByID, hp, hr, hscan]

/-- C4: when user u's stored keyset holds key id K (and, as the key-id format
guarantees for ids minted by `createSessionKey`, K occurs nowhere else and at
most once in u's row), `deleteSessionKey` succeeds, a subsequent
`getPrivateKeyByID K` fails with the key-not-found error of the full scan,
and if K was the user's last device key the durable row is gone and
`getSessionKeys` reports the empty list. -/
theorem c4_deletion_completeness (s : MgrState) (u : Nat) (K : String) (kd : KeyData)
    (hnodup : (s.store.map Prod.fst).Nodup)
    (hrow : alGet s.store u = some kd)
    (hfound : (findDeviceTypeByKid kd K).isSome)
    (hKle : kidCount kd K ≤ 1)
    (hKother : ∀ r ∈ s.store, r.1 ≠ u → kidCount r.2 K = 0) :
    (deleteSessionKey s u K false false false).1 = .ok () ∧
    (getPrivateKeyByID (deleteSessionKey s u K false false false).2 K false).1
      = .error .notFoundStorage ∧
    (kd.length = 1 →
      alGet (deleteSessionKey s u K false false false).2.store u = none ∧
      getSessionKeys (deleteSessionKey s u K false false false).2 u false = .ok []) := by
  obtain ⟨dt, hdt⟩ := Option.isSome_iff_exists.mp hfound
  rw [deleteSessionKey_eq s u K kd dt hrow hdt]
  obtain ⟨sk, kk, hmem, hparse, hkk⟩ := findDeviceTypeByKid_some hdt
  have hmemKid : entryKid (dt, sk) = some K := by simp [entryKid, hparse, hkk]
  have hrest : ∀ p ∈ alDel kd dt, entryKid p ≠ some K := by
    intro p hp hpk
    have h1 := mem_alDel.mp hp
    have hne : p ≠ (dt, sk) := fun hc => h1.2 (by rw [hc])
    have h2 : 2 ≤ kidCount kd K :=
      two_le_countP_of_two_mem h1.1 hmem hne (by simp [hpk]) (by simp [hmemKid])
    omega
  by_cases he : (alDel kd dt).isEmpty
  · rw [if_pos he]
    refine ⟨rfl, ?_, ?_⟩
    · apply getPrivateKeyByID_notFound
      · exact alGet_alDel_self _ _
      · exact alGet_alDel_self _ _
      · apply findKeysetByKeyID_eq_none_iff.mpr
        intro r hr0
        have h1 := mem_alDel.mp hr0
        exact findKeyInKeyData_eq_none_iff.mpr (kidCount_eq_zero_iff.mp (hKother r h1.1 h1.2))
    · intro hlen
      constructor
      · exact alGet_alDel_self _ _
      · simp [getSessionKeys, getUserKeysetRepo, alGet_alDel_self]
  · rw [if_neg he]
    refine ⟨rfl, ?_, ?_⟩
    · apply getPrivateKeyByID_notFound
      · exact alGet_alDel_self _ _
      · exact alGet_alDel_self _ _
      · apply findKeysetByKeyID_eq_none_iff.mpr
        intro r hr0
        rcases mem_alSet_nodup hnodup hr0 with hr0 | ⟨hr1, hr2⟩
        · subst hr0
          exact findKeyInKeyData_eq_none_iff.mpr hrest
        · exact findKeyInKeyData_eq_none_iff.mpr (kidCount_eq_zero_iff.mp (hKother r hr1 hr2))
    · intro hlen
      exfalso
      apply he
      obtain ⟨x, rfl⟩ : ∃ x, kd = [x] := by
        cases kd with
        | nil => simp at hlen
        | cons a t =>
          cases t with
          | nil => exact ⟨a, rfl⟩
          | cons b t2 => simp at hlen
      have hx : (dt, sk) = x := List.mem_singleton.mp hmem
      rw [← hx]
      simp [alDel]

/-- C4 witness: concrete instantiation of `c4_deletion_completeness` at a
one-key state. -/
theorem c4_deletion_witness :
    (let s : MgrState :=
      { store := [(1, [("web", .ser ⟨some "web-1-5", 3⟩)])],
        cacheParsed := [("web-1-5", ⟨some "web-1-5", 3⟩)],
        cacheKeysets := [(1, ⟨1, [("web", .ser ⟨some "web-1-5", 3⟩)]⟩)],
        cacheKeyToUser := [("web-1-5", 1)],
        legacyKeysets := [], legacyParsed := [], legacyKeyToUser := [] }
     (deleteSessionKey s 1 "web-1-5" false false false).1 = .ok () ∧
     (getPrivateKeyByID (deleteSessionKey s 1 "web-1-5" false false false).2
        "web-1-5" false).1 = .error .notFoundStorage ∧
     (([("web", SerializedKey.ser ⟨some "web-1-5", 3⟩)] : KeyData).length = 1 →
       alGet (deleteSessionKey s 1 "web-1-5" false false false).2.store 1 = none ∧
       getSessionKeys (deleteSessionKey s 1 "web-1-5" false false false).2 1 false
         = .ok [])) :=
  c4_deletion_completeness _ 1 "web-1-5" [("web", .ser ⟨some "web-1-5", 3⟩)]
    (by decide) (by decide) (by decide) (by decide) (by decide)

/-! ### C5: reverse-lookup fallback in `GetPrivateKeyByID` -/

/-- C5 counterexample: the claim says that for a key id present in some
user's durable keyset, the lookup succeeds via the full scan even when the
cache indices are stale.  Here "web-2-7" is durably stored for user 2, but a
stale reverse-index entry names user 1 as its owner; the code loads user 1's
keyset, fails to find the key there, and errors without ever falling back to
the full scan. -/
theorem c5_counterexample_stale_reverse_no_fallback :
    (let s : MgrState :=
      { store := [(1, [("web", .ser ⟨some "web-1-5", 3⟩)]),
                  (2, [("web", .ser ⟨some "web-2-7", 9⟩)])],
        cacheParsed := [], cacheKeysets := [],
        cacheKeyToUser := [("web-2-7", 1)],
        legacyKeysets := [], legacyParsed := [], legacyKeyToUser := [] }
     (getPrivateKeyByID s "web-2-7" false).1 = .error (.notFoundKeyset 1)) := by
  decide

/-- C5 (amended): with all three cache indices empty, `getPrivateKeyByID`
computes exactly the full-scan result: the stored key's material when some
durable keyset contains the key id, a key-not-found error otherwise.  (When
the reverse index names an owner whose keyset loads but lacks the key, the
code errors without the full-scan fallback — see the counterexample.) -/
theorem c5_empty_cache_lookup_is_full_scan (st : Store) (keyID : String) :
    (getPrivateKeyByID ⟨st, [], [], [], [], [], []⟩ keyID false).1 = specLookup st keyID := by
  simp only [getPrivateKeyByID, alGet]
  cases hks : findKeysetByKeyID st keyID with
  | none => simp [specLookup, hks]
  | some ks =>
    simp only [specLookup, hks, finishLookup]
    cases hk : findKeyInKeyData ks.keyData keyID <;> simp [hk]

/-! ### C10: `Get` promotes but never refreshes the TTL clock -/

theorem findCons_pos {α : Type} (p : α → Bool) (a : α) (l : List α) (h : p a = true) :
    List.find? p (a :: l) = some a := by
  simp [List.find?, h]

theorem findCons_neg {α : Type} (p : α → Bool) (a : α) (l : List α) (h : p a = false) :
    List.find? p (a :: l) = List.find? p l := by
  simp [List.find?, h]

theorem find?_filter_eq {α : Type} (l : List α) (p q : α → Bool) (h : ∀ x, p x → q x) :
    (l.filter q).find? p = l.find? p := by
  induction l with
  | nil => rfl
  | cons x t ih =>
    cases hq : q x with
    | true =>
      rw [List.filter_cons_of_pos hq]
      cases hp : p x with
      | true => rw [findCons_pos p x _ hp, findCons_pos p x _ hp]
      | false => rw [findCons_neg p x _ hp, findCons_neg p x _ hp, ih]
    | false =>
      have hp : p x = false := by
        cases hpx : p x with
        | true => exact absurd (h x hpx) (by simp [hq])
        | false => rfl
      rw [List.filter_cons_of_neg (by simp [hq]), findCons_neg p x _ hp, ih]

theorem lruPut_ttl (c : LRUCache) (k : String) (v t : Nat) :
    (lruPut c k v t).ttl = c.ttl := by
  rw [lruPut]
  split
  · rfl
  · dsimp only
    split <;> rfl

theorem lruGet_ttl (c : LRUCache) (k : String) (t : Nat) :
    (lruGet c k t).2.ttl = c.ttl := by
  rw [lruGet]
  split
  · rfl
  · split <;> rfl

theorem itemOf_lruPut_self (c : LRUCache) (k : String) (v t : Nat)
    (hcap : 0 < c.capacity) : itemOf (lruPut c k v t) k = some ⟨k, v, t⟩ := by
  rw [lruPut]
  cases hfind : c.items.find? (fun it => it.key == k) with
  | some it =>
    simp only [itemOf]
    exact findCons_pos _ _ _ (by simp)
  | none =>
    simp only [itemOf]
    by_cases hlen : (⟨k, v, t⟩ :: c.items : List CacheItem).length > c.capacity
    · rw [if_pos hlen]
      cases hitems : c.items with
      | nil => rw [hitems] at hlen; simp at hlen; omega
      | cons a t2 =>
        simp only [hitems, List.dropLast_cons₂]
        exact findCons_pos _ _ _ (by simp)
    · rw [if_neg hlen]
      exact findCons_pos _ _ _ (by simp)

theorem itemOf_lruGet_preserved (c : LRUCache) (k kq : String) (t : Nat) (it : CacheItem)
    (hit : itemOf c k = some it)
    (hlive : kq = k → t ≤ it.timestamp + c.ttl) :
    itemOf (lruGet c kq t).2 k = some it := by
  by_cases hkq : kq = k
  · subst hkq
    rw [lruGet]
    rw [itemOf] at hit
    rw [hit]
    dsimp only
    have hts : ¬ (0 < c.ttl ∧ c.ttl < t - it.timestamp) := by
      have := hlive rfl
      omega
    rw [if_neg hts]
    have hkey : it.key = kq := by
      have := List.find?_some hit
      simpa using this
    show List.find? (fun x => x.key == kq) (it :: removeKeyItems c.items kq) = some it
    exact findCons_pos _ _ _ (by simp [hkey])
  · have himp : ∀ x : CacheItem, (x.key == k) = true → (!(x.key == kq)) = true := by
      intro x hx
      have hxk : x.key = k := by simpa using hx
      simp [hxk, Ne.symm hkq]
    rw [lruGet]
    cases hfind : c.items.find? (fun x => x.key == kq) with
    | none => exact hit
    | some itq =>
      have hkeyq : itq.key = kq := by
        have := List.find?_some hfind
        simpa using this
      have hhead : ((fun x : CacheItem => x.key == k) itq) = false := by
        simp [hkeyq]
        exact fun hc => hkq hc
      dsimp only
      split
      · show itemOf ⟨c.capacity, c.ttl, removeKeyItems c.items kq⟩ k = some it
        simp only [itemOf, removeKeyItems]
        rw [find?_filter_eq _ _ _ himp]
        exact hit
      · show itemOf ⟨c.capacity, c.ttl, itq :: removeKeyItems c.items kq⟩ k = some it
        simp only [itemOf, removeKeyItems]
        rw [findCons_neg (fun x : CacheItem => x.key == k) itq _ hhead]
        rw [find?_filter_eq _ _ _ himp]
        exact hit

theorem itemOf_applyGets (ops : List (String × Nat)) (c : LRUCache) (k : String)
    (it : CacheItem) (hit : itemOf c k = some it)
    (hops : ∀ p ∈ ops, p.1 = k → p.2 ≤ it.timestamp + c.ttl) :
    itemOf (applyGets c ops) k = some it ∧ (applyGets c ops).ttl = c.ttl := by
  induction ops generalizing c with
  | nil => exact ⟨hit, rfl⟩
  | cons p t ih =>
    have h1 : itemOf (lruGet c p.1 p.2).2 k = some it :=
      itemOf_lruGet_preserved c k p.1 p.2 it hit
        (fun hp => hops p (List.mem_cons_self _ _) hp)
    have h2 : (lruGet c p.1 p.2).2.ttl = c.ttl := lruGet_ttl c p.1 p.2
    have h3 := ih (lruGet c p.1 p.2).2 h1
      (fun q hq hqk => by rw [h2]; exact hops q (List.mem_cons_of_mem _ hq) hqk)
    have hstep : applyGets c (p :: t) = applyGets (lruGet c p.1 p.2).2 t := rfl
    rw [hstep]
    exact ⟨h3.1, by rw [h3.2, h2]⟩


/-- C10: starting from any cache, after `Put k v` at time `t0` and any
sequence of `Get` calls (gets of `k` while it is still live, gets of other
keys at any time), the entry for `k` keeps value `v` and timestamp `t0`: a
final `Get k` at time `T` hits exactly when `T ≤ t0 + ttl`, and when more
than the TTL has elapsed since the `Put` it is a miss and the entry is
removed — no matter how many successful gets intervened. -/
theorem c10_get_does_not_extend_ttl (c0 : LRUCache) (k : String) (v t0 : Nat)
    (ops : List (String × Nat)) (T : Nat)
    (hcap : 0 < c0.capacity)
    (hops : ∀ p ∈ ops, p.1 = k → p.2 ≤ t0 + c0.ttl) :
    (T ≤ t0 + c0.ttl → (lruGet (applyGets (lruPut c0 k v t0) ops) k T).1 = some v) ∧
    (0 < c0.ttl → t0 + c0.ttl < T →
      (lruGet (applyGets (lruPut c0 k v t0) ops) k T).1 = none ∧
      itemOf (lruGet (applyGets (lruPut c0 k v t0) ops) k T).2 k = none) := by
  have hput : itemOf (lruPut c0 k v t0) k = some ⟨k, v, t0⟩ :=
    itemOf_lruPut_self c0 k v t0 hcap
  have httl1 : (lruPut c0 k v t0).ttl = c0.ttl := lruPut_ttl c0 k v t0
  obtain ⟨hitem, httl2⟩ := itemOf_applyGets ops (lruPut c0 k v t0) k ⟨k, v, t0⟩ hput
    (by intro p hp hpk; rw [httl1]; exact hops p hp hpk)
  have httl : (applyGets (lruPut c0 k v t0) ops).ttl = c0.ttl := by rw [httl2, httl1]
  constructor
  · intro hT
    rw [lruGet]
    rw [itemOf] at hitem
    rw [hitem]
    dsimp only
    have hts : ¬ ((0 : Nat) < (applyGets (lruPut c0 k v t0) ops).ttl ∧
        (applyGets (lruPut c0 k v t0) ops).ttl < T - t0) := by
      rw [httl]
      omega
    rw [if_neg hts]
  · intro httl0 hT
    rw [lruGet]
    rw [itemOf] at hitem
    rw [hitem]
    dsimp only
    have hts : ((0 : Nat) < (applyGets (lruPut c0 k v t0) ops).ttl ∧
        (applyGets (lruPut c0 k v t0) ops).ttl < T - t0) := by
      rw [httl]
      exact ⟨httl0, by omega⟩
    rw [if_pos hts]
    refine ⟨rfl, ?_⟩
    show itemOf ⟨(applyGets (lruPut c0 k v t0) ops).capacity,
      (applyGets (lruPut c0 k v t0) ops).ttl,
      removeKeyItems (applyGets (lruPut c0 k v t0) ops).items k⟩ k = none
    simp only [itemOf, removeKeyItems]
    rw [List.find?_eq_none]
    intro x hx
    have hx2 := (List.mem_filter.mp hx).2
    simpa using hx2


/-- C10 witness: concrete instantiation of `c10_get_does_not_extend_ttl`
with an intervening successful get at time 2 and a final get at time 4. -/
theorem c10_get_ttl_witness :
    ((4 ≤ 0 + (⟨10, 3, []⟩ : LRUCache).ttl →
      (lruGet (applyGets (lruPut ⟨10, 3, []⟩ "a" 100 0) [("a", 2), ("b", 3)]) "a" 4).1
        = some 100) ∧
     (0 < (⟨10, 3, []⟩ : LRUCache).ttl → 0 + (⟨10, 3, []⟩ : LRUCache).ttl < 4 →
      (lruGet (applyGets (lruPut ⟨10, 3, []⟩ "a" 100 0) [("a", 2), ("b", 3)]) "a" 4).1
        = none ∧
      itemOf (lruGet (applyGets (lruPut ⟨10, 3, []⟩ "a" 100 0) [("a", 2), ("b", 3)]) "a" 4).2
        "a" = none)) :=
  c10_get_does_not_extend_ttl ⟨10, 3, []⟩ "a" 100 0 [("a", 2), ("b", 3)] 4
    (by decide) (by decide)


/-! ### C6: cache transparency -/

theorem row_unique_nodup {st : Store} (hn : (st.map Prod.fst).Nodup)
    {r1 r2 : Nat × KeyData} (h1 : r1 ∈ st) (h2 : r2 ∈ st) (he : r1.1 = r2.1) :
    r1 = r2 := by
  induction st with
  | nil => simp at h1
  | cons x t ih =>
    simp only [List.map_cons, List.nodup_cons] at hn
    rcases List.mem_cons.mp h1 with h1 | h1 <;> rcases List.mem_cons.mp h2 with h2 | h2
    · rw [h1, h2]
    · have hx : r2.1 = x.1 := by rw [← h1]; exact he.symm
      exact absurd (List.mem_map.mpr ⟨r2, h2, hx⟩) hn.1
    · have hx : r1.1 = x.1 := by rw [← h2]; exact he
      exact absurd (List.mem_map.mpr ⟨r1, h1, hx⟩) hn.1
    · exact ih hn.2 h1 h2

theorem findKeyInKeyData_isSome_of_mem {kd : KeyData} {K : String}
    {p : String × SerializedKey} (hp : p ∈ kd) (hkid : entryKid p = some K) :
    (findKeyInKeyData kd K).isSome := by
  cases hf : findKeyInKeyData kd K with
  | some k => rfl
  | none => exact absurd hkid (findKeyInKeyData_eq_none_iff.mp hf p hp)

theorem specLookup_of_occ {st : Store} {K : String} {r : Nat × KeyData}
    {p : String × SerializedKey} {k : JwkKey}
    (hwf : WFStore st) (hr : r ∈ st) (hp : p ∈ r.2)
    (hser : p.2 = SerializedKey.ser k) (hkid : k.kid = some K) :
    specLookup st K = .ok k.material := by
  have hek : entryKid p = some K := by simp [entryKid, hser, parseKey, hkid]
  cases hscan : findKeysetByKeyID st K with
  | none =>
    have := findKeysetByKeyID_eq_none_iff.mp hscan r hr
    exact absurd hkid
      (by simpa [entryKid, hser, parseKey] using findKeyInKeyData_eq_none_iff.mp this p hp)
  | some ks =>
    obtain ⟨hksmem, hkssome⟩ := findKeysetByKeyID_some hscan
    obtain ⟨kf, hkf⟩ := Option.isSome_iff_exists.mp hkssome
    obtain ⟨hkfkid, pf, hpf, hpfser⟩ := findKeyInKeyData_some hkf
    have hekf : entryKid pf = some K := by simp [entryKid, hpfser, parseKey, hkfkid]
    have huniq := hwf.2 r hr p hp (ks.userID, ks.keyData) hksmem pf hpf
      (by simp [hek]) (by rw [hek, hekf])
    have hpk : p = pf := huniq.2
    have hkk : k = kf := by
      have h2 : SerializedKey.ser k = SerializedKey.ser kf := by rw [← hser, hpk, hpfser]
      exact SerializedKey.ser.inj h2
    rw [hkk]
    simp only [specLookup, hscan, hkf]

theorem specLookup_eq_of_scan {st : Store} {K : String} {ks : UserKeyset} {k : JwkKey}
    (hscan : findKeysetByKeyID st K = some ks)
    (hfind : findKeyInKeyData ks.keyData K = some k) :
    specLookup st K = .ok k.material := by
  simp only [specLookup, hscan, hfind]


theorem coherent_finish (s : MgrState) (K : String) (k : JwkKey) (u : Nat)
    (hc : CoherentCache s) (hkid : k.kid = some K)
    (hocc : ∃ r ∈ s.store, ∃ p ∈ r.2, p.2 = SerializedKey.ser k)
    (hrow : ∃ r ∈ s.store, r.1 = u ∧ (findKeyInKeyData r.2 K).isSome = true) :
    CoherentCache { s with
      cacheParsed := alSet s.cacheParsed K k
      cacheKeyToUser := alSet s.cacheKeyToUser K u
      legacyParsed := alSet s.legacyParsed K k
      legacyKeyToUser := alSet s.legacyKeyToUser K u } := by
  obtain ⟨hc1, hc2, hc3⟩ := hc
  refine ⟨?_, ?_, ?_⟩
  · intro q hq
    rcases mem_alSet hq with hq | hq
    · subst hq
      exact ⟨hkid, hocc⟩
    · exact hc1 q hq
  · intro q hq
    exact hc2 q hq
  · intro q hq
    rcases mem_alSet hq with hq | hq
    · subst hq
      exact hrow
    · exact hc3 q hq

theorem coherent_put_keyset (s : MgrState) (u : Nat) (ks : UserKeyset)
    (hc : CoherentCache s) (hu : ks.userID = u)
    (hrow : ∃ r ∈ s.store, r.1 = u ∧ r.2 = ks.keyData) :
    CoherentCache { s with cacheKeysets := alSet s.cacheKeysets u ks } := by
  obtain ⟨hc1, hc2, hc3⟩ := hc
  refine ⟨hc1, ?_, hc3⟩
  intro q hq
  rcases mem_alSet hq with hq | hq
  · subst hq
    exact ⟨hu, hrow⟩
  · exact hc2 q hq

theorem finishLookup_spec (s : MgrState) (ks : UserKeyset) (K : String)
    (hwf : WFStore s.store) (hc : CoherentCache s)
    (hksmem : (ks.userID, ks.keyData) ∈ s.store)
    (hfind : (findKeyInKeyData ks.keyData K).isSome = true) :
    (finishLookup s ks K).1 = specLookup s.store K ∧
    (finishLookup s ks K).2.store = s.store ∧
    CoherentCache (finishLookup s ks K).2 := by
  obtain ⟨k, hk⟩ := Option.isSome_iff_exists.mp hfind
  obtain ⟨hkkid, p, hp, hpser⟩ := findKeyInKeyData_some hk
  rw [finishLookup, hk]
  refine ⟨(specLookup_of_occ hwf hksmem hp hpser hkkid).symm, rfl, ?_⟩
  exact coherent_finish s K k ks.userID hc hkkid
    ⟨(ks.userID, ks.keyData), hksmem, p, hp, hpser⟩
    ⟨(ks.userID, ks.keyData), hksmem, rfl, hfind⟩

theorem getPrivateKeyByID_spec (s : MgrState) (K : String)
    (hwf : WFStore s.store) (hc : CoherentCache s) :
    (getPrivateKeyByID s K false).1 = specLookup s.store K ∧
    (getPrivateKeyByID s K false).2.store = s.store ∧
    CoherentCache (getPrivateKeyByID s K false).2 := by
  rw [getPrivateKeyByID]
  cases hparsed : alGet s.cacheParsed K with
  | some key =>
    dsimp only
    obtain ⟨hkid, r, hr, p, hp, hser⟩ := hc.1 (K, key) (mem_of_alGet hparsed)
    exact ⟨(specLookup_of_occ hwf hr hp hser hkid).symm, rfl, hc⟩
  | none =>
    dsimp only
    cases hrev : alGet s.cacheKeyToUser K with
    | some u =>
      dsimp only
      obtain ⟨r, hr, hru, hrK⟩ := hc.2.2 (K, u) (mem_of_alGet hrev)
      have hrpair : r = (u, r.2) := by
        obtain ⟨r1, r2⟩ := r
        simp only at hru
        rw [hru]
      cases hksc : alGet s.cacheKeysets u with
      | some ks =>
        dsimp only
        obtain ⟨hksu, r2, hr2, hr2u, hr2kd⟩ := hc.2.1 (u, ks) (mem_of_alGet hksc)
        have hr2r : r2 = r := row_unique_nodup hwf.1 hr2 hr (by rw [hr2u, hru])
        have hksmem : (ks.userID, ks.keyData) ∈ s.store := by
          have hr2p : r2 = (ks.userID, ks.keyData) := by
            obtain ⟨a, b⟩ := r2
            simp only at hr2u hr2kd
            rw [hr2u, hr2kd, hksu]
          rw [← hr2p]
          exact hr2
        have hfindks : (findKeyInKeyData ks.keyData K).isSome = true := by
          have : ks.keyData = r.2 := by rw [← hr2kd, hr2r]
          rw [this]
          exact hrK
        exact finishLookup_spec s ks K hwf hc hksmem hfindks
      | none =>
        dsimp only
        have halget : alGet s.store u = some r.2 := by
          rw [hrpair] at hr
          exact alGet_of_mem_nodup hwf.1 hr
        rw [getUserKeysetRepo]
        simp only [Bool.false_eq_true, if_false, halget]
        have hrow : ∃ r0 ∈ s.store, r0.1 = u ∧ r0.2 = (⟨u, r.2⟩ : UserKeyset).keyData :=
          ⟨r, hr, hru, rfl⟩
        have hc1 : CoherentCache { s with cacheKeysets := alSet s.cacheKeysets u ⟨u, r.2⟩ } :=
          coherent_put_keyset s u ⟨u, r.2⟩ hc rfl hrow
        have hksmem : ((⟨u, r.2⟩ : UserKeyset).userID, (⟨u, r.2⟩ : UserKeyset).keyData)
            ∈ ({ s with cacheKeysets := alSet s.cacheKeysets u ⟨u, r.2⟩ } : MgrState).store := by
          show (u, r.2) ∈ s.store
          rw [← hrpair]
          exact hr
        exact finishLookup_spec _ ⟨u, r.2⟩ K hwf hc1 hksmem hrK
    | none =>
      dsimp only
      cases hscan : findKeysetByKeyID s.store K with
      | none =>
        dsimp only
        refine ⟨?_, rfl, hc⟩
        simp [specLookup, hscan]
      | some ks =>
        dsimp only
        obtain ⟨hksmem, hkssome⟩ := findKeysetByKeyID_some hscan
        have hc1 : CoherentCache
            { s with cacheKeysets := alSet s.cacheKeysets ks.userID ks } :=
          coherent_put_keyset s ks.userID ks hc rfl
            ⟨(ks.userID, ks.keyData), hksmem, rfl, rfl⟩
        have hres := finishLookup_spec
          { s with cacheKeysets := alSet s.cacheKeysets ks.userID ks } ks K hwf hc1
          hksmem hkssome
        exact hres


theorem getSessionKeys_store_eq (s1 s2 : MgrState) (hstore : s1.store = s2.store) (u : Nat) :
    getSessionKeys s1 u false = getSessionKeys s2 u false := by
  unfold getSessionKeys getUserKeysetRepo
  rw [hstore]

theorem getUserPublicKeys_store_eq (s1 s2 : MgrState) (hstore : s1.store = s2.store) (u : Nat) :
    getUserPublicKeys s1 u false = getUserPublicKeys s2 u false := by
  unfold getUserPublicKeys getUserKeysetRepo
  rw [hstore]

/-- C6: cache transparency.  Two runs of the same sequence of read
operations (`getSigningKey`, `listSessionKeys`, `getPublicKeysForUser`) over
the same well-formed store produce identical outputs whenever both initial
caches are coherent with the store — in particular whether a cache is empty,
partially populated, or fully populated.  `getSessionKeys` and
`getUserPublicKeys` never consult the cache, and `getPrivateKeyByID` computes
the full-scan result `specLookup` from any coherent cache, preserving the
store and coherence. -/
theorem c6_cache_transparency (ops : List ReadOp) (s1 s2 : MgrState)
    (hstore : s1.store = s2.store) (hwf : WFStore s1.store)
    (hc1 : CoherentCache s1) (hc2 : CoherentCache s2) :
    runReadOps s1 ops = runReadOps s2 ops := by
  induction ops generalizing s1 s2 with
  | nil => rfl
  | cons op t ih =>
    cases op with
    | signingKey K =>
      obtain ⟨he1, hs1, hcc1⟩ := getPrivateKeyByID_spec s1 K hwf hc1
      obtain ⟨he2, hs2, hcc2⟩ := getPrivateKeyByID_spec s2 K (by rw [← hstore]; exact hwf) hc2
      show ReadOut.key (getPrivateKeyByID s1 K false).1
            :: runReadOps (getPrivateKeyByID s1 K false).2 t
          = ReadOut.key (getPrivateKeyByID s2 K false).1
            :: runReadOps (getPrivateKeyByID s2 K false).2 t
      have hhead : (getPrivateKeyByID s1 K false).1 = (getPrivateKeyByID s2 K false).1 := by
        rw [he1, he2, hstore]
      have htail := ih (getPrivateKeyByID s1 K false).2 (getPrivateKeyByID s2 K false).2
        (by rw [hs1, hs2, hstore]) (by rw [hs1]; exact hwf) hcc1 hcc2
      rw [hhead, htail]
    | sessionKeys u =>
      show ReadOut.kids (getSessionKeys s1 u false) :: runReadOps s1 t
          = ReadOut.kids (getSessionKeys s2 u false) :: runReadOps s2 t
      rw [getSessionKeys_store_eq s1 s2 hstore u, ih s1 s2 hstore hwf hc1 hc2]
    | publicKeys u =>
      show ReadOut.pubs (getUserPublicKeys s1 u false) :: runReadOps s1 t
          = ReadOut.pubs (getUserPublicKeys s2 u false) :: runReadOps s2 t
      rw [getUserPublicKeys_store_eq s1 s2 hstore u, ih s1 s2 hstore hwf hc1 hc2]

/-- C6 witness: `c6_cache_transparency` applied to a partially populated
coherent cache versus an empty cache over a two-user store, on a sequence
exercising the parsed-key hit, the reverse-index hit, the full scan, both
store-only reads, and a missing key. -/
theorem c6_cache_transparency_witness :
    (let st : Store := [(1, [("web", .ser ⟨some "web-1-5", 3⟩),
                             ("android", .ser ⟨some "android-1-7", 4⟩)]),
                        (2, [("web", .ser ⟨some "web-2-9", 5⟩)])]
     let s1 : MgrState :=
       { store := st,
         cacheParsed := [("web-1-5", ⟨some "web-1-5", 3⟩)],
         cacheKeysets := [(2, ⟨2, [("web", .ser ⟨some "web-2-9", 5⟩)]⟩)],
         cacheKeyToUser := [("android-1-7", 1)],
         legacyKeysets := [], legacyParsed := [], legacyKeyToUser := [] }
     let s2 : MgrState :=
       { store := st, cacheParsed := [], cacheKeysets := [], cacheKeyToUser := [],
         legacyKeysets := [], legacyParsed := [], legacyKeyToUser := [] }
     runReadOps s1 [.signingKey "web-1-5", .signingKey "android-1-7",
                    .sessionKeys 1, .publicKeys 2, .signingKey "gone-3-3"]
       = runReadOps s2 [.signingKey "web-1-5", .signingKey "android-1-7",
                    .sessionKeys 1, .publicKeys 2, .signingKey "gone-3-3"]) :=
  c6_cache_transparency _ _ _ (by decide) (by unfold WFStore; decide)
    (by unfold CoherentCache; decide) (by unfold CoherentCache; decide)


end JwkAuth
